import Mathlib

/-!
Verification of the crate-completion engine: a shallow embedding of the
library (`crates.rs`, `lib.rs`) and CLI wrapper (`main.rs`) of the
cargo-edit completion helper, together with theorems settling the frozen
claims about its specification.  Strings are modelled as `List Char`.
-/

/-! ## Character classes used by the source -/

/-- The two name-separator characters treated as interchangeable. -/
def isSepChar (c : Char) : Bool := c == '-' || c == '_'

/-- The comparator operator characters stripped by `complete_version`. -/
def isCompChar (c : Char) : Bool :=
  c == '>' || c == '<' || c == '=' || c == '~' || c == '^'

/-- Rust `char::is_whitespace` (the Unicode `White_Space` code points). -/
def isRustWs (c : Char) : Bool :=
  let n := c.toNat
  n == 9 || n == 10 || n == 11 || n == 12 || n == 13 || n == 32 ||
  n == 133 || n == 160 || n == 5760 || (8192 ≤ n && n ≤ 8202) ||
  n == 8232 || n == 8233 || n == 8239 || n == 8287 || n == 12288

/-- Rust `str::trim`: drop whitespace from both ends. -/
def rustTrim (s : List Char) : List Char :=
  ((s.dropWhile isRustWs).reverse.dropWhile isRustWs).reverse

/-- Rust `str::strip_prefix`: the suffix left after removing `p`, when `p`
is a literal prefix of `s`. -/
def dropPrefixQ : List Char → List Char → Option (List Char)
  | [], s => some s
  | _ :: _, [] => none
  | p :: ps, c :: cs => if p = c then dropPrefixQ ps cs else none

/-! ## `expand_path_domain` (crates.rs): separator-variant expansion -/

/-- The per-character choice list: a separator may be realised as `'_'` or
`'-'` (in that iteration order); any other character only as itself. -/
def sepChoice (c : Char) : List Char :=
  if c = '_' ∨ c = '-' then ['_', '-'] else [c]

/-- Cartesian product of a list of choice lists, last position varying
fastest, exactly as itertools' `MultiProduct` iterates. -/
def cartProd : List (List Char) → List (List Char)
  | [] => [[]]
  | l :: ls => l.flatMap (fun x => (cartProd ls).map (fun t => x :: t))

/-- Model of `expand_path_domain`: itertools' `multi_cartesian_product` over the
per-character choice lists.  On an empty outer collection the itertools
adaptor yields no element at all (not one empty product), which this
definition reproduces. -/
def expandPathDomain (part : List Char) : List (List Char) :=
  match part with
  | [] => []
  | _ :: _ => cartProd (part.map sepChoice)

/-- Number of separator characters in a fragment. -/
def countSeps (f : List Char) : Nat := f.countP isSepChar

theorem isSepChar_iff (c : Char) : isSepChar c = true ↔ (c = '_' ∨ c = '-') := by
  simp [isSepChar, or_comm]

theorem sum_map_constN (l : List Char) (n : Nat) :
    (l.map (fun _ => n)).sum = l.length * n := by
  induction l with
  | nil => simp
  | cons a l ih => simp [ih, Nat.succ_mul, Nat.add_comm]

theorem cartProd_length (ls : List (List Char)) :
    (cartProd ls).length = (ls.map List.length).prod := by
  induction ls with
  | nil => rfl
  | cons l ls ih =>
    show (l.flatMap fun x => (cartProd ls).map (fun t => x :: t)).length = _
    rw [List.length_flatMap]
    simp only [Function.comp_def, List.length_map]
    rw [sum_map_constN l (cartProd ls).length, ih]
    rw [List.map_cons, List.prod_cons]

theorem mem_cartProd (x : List Char) (ls : List (List Char)) :
    x ∈ cartProd ls ↔ List.Forall₂ (fun c l => c ∈ l) x ls := by
  induction ls generalizing x with
  | nil => cases x <;> simp [cartProd]
  | cons l ls ih =>
    cases x with
    | nil => simp [cartProd, List.mem_flatMap]
    | cons c t =>
      constructor
      · intro hx
        simp only [cartProd, List.mem_flatMap, List.mem_map] at hx
        obtain ⟨a, ha, y, hy, heq⟩ := hx
        injection heq with h1 h2
        subst h1; subst h2
        exact List.Forall₂.cons ha ((ih y).mp hy)
      · intro hx
        cases hx with
        | cons hc ht =>
          simp only [cartProd, List.mem_flatMap, List.mem_map]
          exact ⟨c, hc, t, (ih t).mpr ht, rfl⟩

theorem cartProd_nodup (ls : List (List Char)) (h : ∀ l ∈ ls, l.Nodup) :
    (cartProd ls).Nodup := by
  induction ls with
  | nil => simp [cartProd]
  | cons l ls ih =>
    show (l.flatMap fun x => (cartProd ls).map (fun t => x :: t)).Nodup
    have hl : l.Nodup := h l (List.mem_cons_self _ _)
    have hls : ∀ m ∈ ls, m.Nodup := fun m hm => h m (List.mem_cons_of_mem _ hm)
    rw [List.nodup_flatMap]
    constructor
    · intro x _
      exact (ih hls).map (fun t t' ht => by injection ht)
    · refine hl.imp ?_
      intro a b hab y hy1 hy2
      simp only [List.mem_map] at hy1 hy2
      obtain ⟨t, _, rfl⟩ := hy1
      obtain ⟨t', _, heq⟩ := hy2
      injection heq with h1 _
      exact hab h1.symm

theorem prod_sepChoice_lengths (f : List Char) :
    ((f.map sepChoice).map List.length).prod = 2 ^ countSeps f := by
  induction f with
  | nil => rfl
  | cons c cs ih =>
    have hcons : ((c :: cs).map sepChoice).map List.length
        = (sepChoice c).length :: (cs.map sepChoice).map List.length := by
      simp
    rw [hcons, List.prod_cons, ih]
    by_cases h : c = '_' ∨ c = '-'
    · have hsep : isSepChar c = true := (isSepChar_iff c).mpr h
      rw [show sepChoice c = ['_', '-'] from by rw [sepChoice, if_pos h]]
      rw [show countSeps (c :: cs) = countSeps cs + 1 from by
        simp [countSeps, List.countP_cons, hsep]]
      rw [pow_succ, Nat.mul_comm]
      rfl
    · have hsep : isSepChar c = false := by
        cases hs : isSepChar c
        · rfl
        · exact absurd ((isSepChar_iff c).mp hs) h
      rw [show sepChoice c = [c] from by rw [sepChoice, if_neg h]]
      rw [show countSeps (c :: cs) = countSeps cs from by
        simp [countSeps, List.countP_cons, hsep]]
      simp

/-- C2 (amended): for every nonempty fragment with `k` separator
occurrences, `expand_path_domain` yields exactly `2^k` distinct strings,
each choosing `-` or `_` independently at the separator positions and
keeping every other character; the empty fragment, however, yields no
string at all. -/
theorem expandPathDomain_spec (f : List Char) (hf : f ≠ []) :
    (expandPathDomain f).length = 2 ^ countSeps f ∧
    (expandPathDomain f).Nodup ∧
    ∀ s ∈ expandPathDomain f,
      List.Forall₂ (fun c q => if isSepChar q then c = '-' ∨ c = '_' else c = q) s f := by
  obtain ⟨c, cs, rfl⟩ : ∃ c cs, f = c :: cs := by
    cases f with
    | nil => exact absurd rfl hf
    | cons c cs => exact ⟨c, cs, rfl⟩
  have hexp : expandPathDomain (c :: cs) = cartProd ((c :: cs).map sepChoice) := rfl
  refine ⟨?_, ?_, ?_⟩
  · rw [hexp, cartProd_length, prod_sepChoice_lengths]
  · rw [hexp]
    refine cartProd_nodup _ ?_
    intro l hl
    simp only [List.mem_map] at hl
    obtain ⟨a, _, rfl⟩ := hl
    by_cases h : a = '_' ∨ a = '-' <;> simp [sepChoice, h]
  · intro s hs
    rw [hexp, mem_cartProd] at hs
    have := List.forall₂_map_right_iff.mp hs
    refine this.imp ?_
    intro x q hxq
    by_cases h : q = '_' ∨ q = '-'
    · have hsep : isSepChar q = true := (isSepChar_iff q).mpr h
      simp only [sepChoice, if_pos h, List.mem_cons, List.mem_singleton,
        List.not_mem_nil, or_false] at hxq
      simp only [hsep, if_pos]
      rcases hxq with h1 | h1
      · exact Or.inr h1
      · exact Or.inl h1
    · have hsep : isSepChar q = false := by
        cases hs' : isSepChar q
        · rfl
        · exact absurd ((isSepChar_iff q).mp hs') h
      simp only [sepChoice, if_neg h] at hxq
      simp only [hsep, Bool.false_eq_true, if_false]
      simpa using hxq

/-- C2 counterexample: expanding the empty fragment yields no string at
all, not `2^0 = 1` strings as the claim states for the `k = 0` empty
fragment. -/
theorem expandPathDomain_empty_cex :
    (expandPathDomain []).length ≠ 2 ^ countSeps [] := by decide

/-- Witness for the C2 theorem at the fragment `a-b`. -/
theorem expandPathDomain_spec_witness :
    (expandPathDomain ['a', '-', 'b']).length = 2 ^ countSeps ['a', '-', 'b'] :=
  (expandPathDomain_spec ['a', '-', 'b'] (by decide)).1

/-! ## `regexify` (crates.rs): the separator-ambiguous matcher

`regexify` builds the pattern string
`"^" ++ partial_name.replace("-", "?[-_]").replace("_", "?[-_]")` and
compiles it with the `regex` crate.  The second `replace` also rewrites
the `_` inserted by the first, so a `-` in the fragment contributes the
text `?[-?[-_]]` (whose inner bracket the `regex` crate parses as a
nested class, yielding the class `{-, ?, _}`), while a `_` contributes
`?[-_]` (the class `{-, _}`); in both cases the leading `?` makes the
preceding pattern atom optional.  The model below parses along these
rules, restricted to fragments of alphanumeric and separator characters
that do not start with a separator (for which the substitution yields a
plain sequence of possibly-optional single-character atoms). -/

/-- One atom of the compiled pattern: a literal character, the class
inserted for `_` (matching `-` or `_`), or the class inserted for `-`
(matching `-`, `?` or `_`). -/
inductive AtomKind where
  | lit (c : Char)
  | classU
  | classD
  deriving DecidableEq

/-- A pattern atom together with the optionality flag a following `?`
may have set. -/
structure Atom where
  kind : AtomKind
  optFlag : Bool
  deriving DecidableEq

/-- Does a single pattern atom accept a candidate character? -/
def atomAccepts (a : Atom) (c : Char) : Bool :=
  match a.kind with
  | .lit d => c == d
  | .classU => c == '-' || c == '_'
  | .classD => c == '-' || c == '?' || c == '_'

/-- Mark the final atom of a pattern optional (the effect of a `?` that
follows it in the pattern text). -/
def markLastOpt : List Atom → List Atom
  | [] => []
  | [a] => [⟨a.kind, true⟩]
  | a :: rest => a :: markLastOpt rest

/-- Accumulating construction of the atom sequence. -/
def regexAtomsAux (acc : List Atom) : List Char → List Atom
  | [] => acc
  | c :: cs =>
    if c = '-' then regexAtomsAux (markLastOpt acc ++ [⟨.classD, false⟩]) cs
    else if c = '_' then regexAtomsAux (markLastOpt acc ++ [⟨.classU, false⟩]) cs
    else regexAtomsAux (acc ++ [⟨.lit c, false⟩]) cs

/-- A fragment for which the substitution produces a plain atom pattern:
alphanumeric or separator characters only, not starting with a
separator. -/
def plainFrag (f : List Char) : Bool :=
  (match f with
   | [] => true
   | c :: _ => !isSepChar c) &&
  f.all (fun c => c.isAlphanum || isSepChar c)

/-- The compiled matcher of `regexify`, as an atom list (`none` when the
fragment is outside the plain domain modelled here). -/
def regexAtoms (f : List Char) : Option (List Atom) :=
  if plainFrag f then some (regexAtomsAux [] f) else none

/-- Backtracking matcher for an atom sequence against a prefix of the
candidate: the semantics of `Regex::is_match` for the anchored pattern
`^atoms`. -/
def atomsMatch : List Atom → List Char → Bool
  | [], _ => true
  | a :: as_, s =>
    (a.optFlag && atomsMatch as_ s) ||
    (match s with
     | [] => false
     | c :: cs => atomAccepts a c && atomsMatch as_ cs)

/-- Acceptance of a candidate name by the `regexify` matcher. -/
def regexMatch (f cand : List Char) : Option Bool :=
  (regexAtoms f).map (fun as_ => atomsMatch as_ cand)

/-- The matcher the claim describes: walk fragment and candidate in
lock-step from the start; a separator in the fragment matches either
separator, any other fragment character matches literally, and no
fragment character is optional. -/
def lockstepMatch : List Char → List Char → Bool
  | [], _ => true
  | _ :: _, [] => false
  | q :: qs, c :: cs =>
    (if isSepChar q then isSepChar c else q == c) && lockstepMatch qs cs

/-- C1: the claim is right and the code is wrong.  The substitution in
`regexify` makes the character before each separator optional (and lets
a `-` in the query match `?`), so the compiled matcher accepts
candidates the lock-step semantics rejects: the pattern built from
`foo-` accepts `fo-x`, and the pattern built from `a-b` accepts `a?b`,
while the lock-step matcher rejects both. -/
theorem regexify_deviates_from_lockstep :
    regexMatch ['f', 'o', 'o', '-'] ['f', 'o', '-', 'x'] = some true ∧
    lockstepMatch ['f', 'o', 'o', '-'] ['f', 'o', '-', 'x'] = false ∧
    regexMatch ['a', '-', 'b'] ['a', '?', 'b'] = some true ∧
    lockstepMatch ['a', '-', 'b'] ['a', '?', 'b'] = false := by
  decide

/-! ## The shard tree: an in-memory model of the on-disk index

A directory entry pairs a file name with a node; a node is a plain file
(one crate's metadata file; its content is irrelevant to traversal) or a
directory with an ordered entry list (the order `read_dir` yields). -/

mutual
inductive FsNode where
  | file : FsNode
  | dir : FsEntries → FsNode
inductive FsEntries where
  | nil : FsEntries
  | cons : List Char → FsNode → FsEntries → FsEntries
end

/-- Is there an entry (of any type) with the given name?  This is the
`read_dir` + `filter` + `next` test `_crate_exact` performs first. -/
def hasEntry : FsEntries → List Char → Bool
  | .nil, _ => false
  | .cons nm _ es, n => nm == n || hasEntry es n

/-- Model of `path.join(seg)` followed by the `is_dir`/`read_dir` steps: the first
entry with the given name, if any. -/
def childD : FsEntries → List Char → Option FsNode
  | .nil, _ => none
  | .cons nm nd es, n => if nm == n then some nd else childD es n

/-- Model of `_crate_exact` (crates.rs): descend the shard tree consuming one or
two characters of the remaining name per level, returning the name of
the first directory entry equal to the full name.  `none` both when the
path is not a directory and when the name is exhausted unmatched. -/
def crateExact : Option FsNode → List Char → List Char → Option (List Char)
  | none, _, _ => none
  | some .file, _, _ => none
  | some (.dir es), pfx, remaining =>
    if hasEntry es pfx then some pfx
    else
      match remaining with
      | [] => none
      | [_] => crateExact (some (.dir es)) pfx []
      | c1 :: c2 :: rest =>
        match crateExact (childD es [c1]) pfx (c2 :: rest) with
        | some r => some r
        | none => crateExact (childD es [c1, c2]) pfx rest

mutual
/-- Does the name occur as a directory entry anywhere in the tree? -/
def occursName : FsNode → List Char → Bool
  | .file, _ => false
  | .dir es, n => occursNameE es n
def occursNameE : FsEntries → List Char → Bool
  | .nil, _ => false
  | .cons nm nd es, n => nm == n || occursName nd n || occursNameE es n
end

theorem hasEntry_occurs : ∀ (es : FsEntries) (n : List Char),
    hasEntry es n = true → occursNameE es n = true
  | .nil, n, h => by simp [hasEntry] at h
  | .cons nm nd es, n, h => by
    simp only [hasEntry] at h
    simp only [occursNameE]
    rcases Bool.or_eq_true_iff.mp h with h1 | h2
    · simp [h1]
    · simp [hasEntry_occurs es n h2]

theorem childD_occurs : ∀ (es : FsEntries) (h p : List Char) (nd : FsNode),
    childD es h = some nd → occursName nd p = true → occursNameE es p = true
  | .nil, _, _, _, hc, _ => by simp [childD] at hc
  | .cons nm nd' es, h, p, nd, hc, ho => by
    simp only [childD] at hc
    by_cases hnm : nm == h
    · rw [if_pos hnm] at hc
      injection hc with hc
      subst hc
      simp [occursNameE, ho]
    · rw [if_neg hnm] at hc
      simp [occursNameE, childD_occurs es h p nd hc ho]

theorem crateExact_sound (nd : Option FsNode) (pfx remaining : List Char) :
    ∀ x, crateExact nd pfx remaining = some x →
      x = pfx ∧ ∃ es, nd = some (.dir es) ∧ occursNameE es pfx = true := by
  induction nd, pfx, remaining using crateExact.induct with
  | case1 t p =>
    intro x h
    rw [crateExact.eq_def] at h
    simp at h
  | case2 t p =>
    intro x h
    rw [crateExact.eq_def] at h
    simp at h
  | case3 es pfx remaining hhas =>
    intro x h
    rw [crateExact.eq_def] at h
    simp only [hhas, if_true, if_pos] at h
    injection h with h
    subst h
    exact ⟨rfl, es, rfl, hasEntry_occurs es pfx hhas⟩
  | case4 es pfx hhas =>
    intro x h
    rw [crateExact.eq_def] at h
    simp [hhas] at h
  | case5 es pfx hhas head ih =>
    intro x h
    rw [crateExact.eq_def] at h
    simp only [hhas, Bool.false_eq_true, if_false] at h
    exact ih x h
  | case6 es pfx hhas c1 c2 rest r hrec ih =>
    intro x h
    rw [crateExact.eq_def] at h
    simp only [hhas, Bool.false_eq_true, if_false, hrec] at h
    injection h with h
    subst h
    obtain ⟨hx, es', hnd, hocc⟩ := ih r hrec
    refine ⟨hx, es, rfl, childD_occurs es [c1] pfx (.dir es') hnd ?_⟩
    simpa [occursName] using hocc
  | case7 es pfx hhas c1 c2 rest hnone ih1 ih2 =>
    intro x h
    rw [crateExact.eq_def] at h
    simp only [hhas, Bool.false_eq_true, if_false, hnone] at h
    obtain ⟨hx, es', hnd, hocc⟩ := ih2 x h
    refine ⟨hx, es, rfl, childD_occurs es [c1, c2] pfx (.dir es') hnd ?_⟩
    simpa [occursName] using hocc

/-- A shard tree holding packages of name-length classes 1, 2, 3 and 5:
`z` directly at the root, `xy` under `x/`, `abc` under `a/`, and
`abcde` under `ab/cd/`. -/
def shardTreeEx : FsEntries :=
  .cons ['z'] .file (
  .cons ['x'] (.dir (.cons ['x', 'y'] .file .nil)) (
  .cons ['a'] (.dir (.cons ['a', 'b', 'c'] .file .nil)) (
  .cons ['a', 'b'] (.dir (.cons ['c', 'd'] (.dir
    (.cons ['a', 'b', 'c', 'd', 'e'] .file .nil)) .nil)) .nil)))

/-- C5: exact lookup descends by consuming name characters, trying the
1-character segment before the 2-character segment, and returns the
first directory entry whose name equals the full name; a non-directory
path or an exhausted name gives `none`, not an error.  Any successful
lookup returns the requested name and implies an entry of that name
exists in the tree, and on the constructed shard tree the names of
length 1, 2, 3 and 5 are each found while an absent name is not. -/
theorem crateExact_spec :
    (∀ pfx rem, crateExact none pfx rem = none) ∧
    (∀ pfx rem, crateExact (some .file) pfx rem = none) ∧
    (∀ nd pfx rem x, crateExact nd pfx rem = some x →
      x = pfx ∧ ∃ es, nd = some (.dir es) ∧ occursNameE es pfx = true) ∧
    crateExact (some (.dir shardTreeEx)) ['z'] ['z'] = some ['z'] ∧
    crateExact (some (.dir shardTreeEx)) ['x', 'y'] ['x', 'y'] = some ['x', 'y'] ∧
    crateExact (some (.dir shardTreeEx)) ['a', 'b', 'c'] ['a', 'b', 'c']
      = some ['a', 'b', 'c'] ∧
    crateExact (some (.dir shardTreeEx)) ['a', 'b', 'c', 'd', 'e']
      ['a', 'b', 'c', 'd', 'e'] = some ['a', 'b', 'c', 'd', 'e'] ∧
    crateExact (some (.dir shardTreeEx)) ['q', 'q', 'q'] ['q', 'q', 'q'] = none := by
  refine ⟨?_, ?_, ?_, by decide, by decide, by decide, by decide, by decide⟩
  · intro pfx rem
    rw [crateExact.eq_def]
  · intro pfx rem
    rw [crateExact.eq_def]
  · intro nd pfx rem x h
    exact crateExact_sound nd pfx rem x h

/-- Witness for C5: the soundness component applied to the successful
lookup of `abc` in the constructed tree. -/
theorem crateExact_spec_witness : occursNameE shardTreeEx ['a', 'b', 'c'] = true := by
  obtain ⟨-, es, hes, hocc⟩ := crateExact_spec.2.2.1 (some (.dir shardTreeEx))
    ['a', 'b', 'c'] ['a', 'b', 'c'] ['a', 'b', 'c'] (by decide)
  injection hes with hes
  injection hes with hes
  exact hes ▸ hocc

/-- The file entries of a directory, in order, filtered by the matcher
when `applyM` is set (the nonempty-remaining case of
`_crates_with_prefix`). -/
def hereFiles (m : List Char → Bool) (applyM : Bool) : FsEntries → List (List Char)
  | .nil => []
  | .cons nm .file es =>
    if applyM then
      (if m nm then nm :: hereFiles m applyM es else hereFiles m applyM es)
    else nm :: hereFiles m applyM es
  | .cons _ (.dir _) es => hereFiles m applyM es

mutual
/-- Model of `_crates_with_prefix` (crates.rs) on a directory node: collect the
file entries of the current directory (all of them when the remaining
prefix is empty, only the matcher-accepted ones otherwise), then branch
on the remaining prefix length as the source does. -/
def cwpNode (m : List Char → Bool) : FsNode → List Char → List (List Char)
  | .file, _ => []
  | .dir es, remaining =>
    (match remaining with
     | [] => hereFiles m false es
     | _ :: _ => hereFiles m true es) ++
    (match remaining with
     | [] => scanSubdirs m es
     | [c] => scanPick m (expandPathDomain [c]) es
     | c1 :: c2 :: rest =>
       (expandPathDomain [c1]).flatMap (fun hv => cwpChild m (c2 :: rest) es hv) ++
       (expandPathDomain [c1, c2]).flatMap (fun hv => cwpChild m rest es hv))
/-- The empty-remaining loop: recurse into every subdirectory. -/
def scanSubdirs (m : List Char → Bool) : FsEntries → List (List Char)
  | .nil => []
  | .cons _ .file es => scanSubdirs m es
  | .cons _ (.dir es') es => cwpNode m (.dir es') [] ++ scanSubdirs m es
/-- The length-1 loop: recurse with an emptied prefix into every
subdirectory whose name starts with one of the expanded variants, once
per matching variant. -/
def scanPick (m : List Char → Bool) (parts : List (List Char)) : FsEntries → List (List Char)
  | .nil => []
  | .cons _ .file es => scanPick m parts es
  | .cons nm (.dir es') es =>
    (parts.filter (fun p => p.isPrefixOf nm)).flatMap (fun _ => cwpNode m (.dir es') []) ++
    scanPick m parts es
/-- Model of `path.join(seg)` followed by the recursive call: recurse into the
first entry of that name (a missing or file entry contributes nothing,
matching the `is_dir` guard). -/
def cwpChild (m : List Char → Bool) (tail : List Char) : FsEntries → List Char → List (List Char)
  | .nil, _ => []
  | .cons nm nd es, hv => if nm == hv then cwpNode m nd tail else cwpChild m tail es hv
end

/-- Entry point of `_crates_with_prefix`: a non-directory path yields no
result. -/
def cratesWithPrefix (m : List Char → Bool) : Option FsNode → List Char → List (List Char)
  | none, _ => []
  | some nd, remaining => cwpNode m nd remaining

mutual
/-- Every file name in the subtree, in entry order. -/
def allFilesN : FsNode → List (List Char)
  | .file => []
  | .dir es => allFilesE es
def allFilesE : FsEntries → List (List Char)
  | .nil => []
  | .cons nm .file es => nm :: allFilesE es
  | .cons _ (.dir es') es => allFilesE es' ++ allFilesE es
end

theorem cwpChild_eq (m : List Char → Bool) (tail : List Char) :
    ∀ (es : FsEntries) (hv : List Char),
      cwpChild m tail es hv = cratesWithPrefix m (childD es hv) tail
  | .nil, hv => by simp [cwpChild, childD, cratesWithPrefix]
  | .cons nm nd es, hv => by
    simp only [cwpChild, childD]
    by_cases h : nm == hv
    · rw [if_pos h, if_pos h]
      rfl
    · rw [if_neg h, if_neg h]
      exact cwpChild_eq m tail es hv

mutual
theorem cwpNode_nil_mem : ∀ (m : List Char → Bool) (n : FsNode) (x : List Char),
    x ∈ cwpNode m n [] ↔ x ∈ allFilesN n
  | m, .file, x => by simp [cwpNode, allFilesN]
  | m, .dir es, x => by
    show x ∈ hereFiles m false es ++ scanSubdirs m es ↔ x ∈ allFilesE es
    rw [List.mem_append]
    exact cwpEntries_nil_mem m es x
theorem cwpEntries_nil_mem : ∀ (m : List Char → Bool) (es : FsEntries) (x : List Char),
    (x ∈ hereFiles m false es ∨ x ∈ scanSubdirs m es) ↔ x ∈ allFilesE es
  | m, .nil, x => by simp [hereFiles, scanSubdirs, allFilesE]
  | m, .cons nm .file es, x => by
    show (x ∈ nm :: hereFiles m false es ∨ x ∈ scanSubdirs m es) ↔ x ∈ nm :: allFilesE es
    rw [List.mem_cons, List.mem_cons, or_assoc]
    rw [cwpEntries_nil_mem m es x]
  | m, .cons nm (.dir es') es, x => by
    show (x ∈ hereFiles m false es ∨ x ∈ cwpNode m (.dir es') [] ++ scanSubdirs m es)
        ↔ x ∈ allFilesE es' ++ allFilesE es
    rw [List.mem_append, List.mem_append]
    rw [cwpNode_nil_mem m (.dir es') x]
    rw [show allFilesN (.dir es') = allFilesE es' from rfl]
    rw [or_left_comm]
    rw [cwpEntries_nil_mem m es x]
end

/-- The example tree of the spec test: `foo-bar`, `foo_bar`, `foobar`
and `food` stored under their shard paths `fo/o-`, `fo/o_`, `fo/ob`,
`fo/od`. -/
def prefixTreeEx : FsEntries :=
  .cons ['f', 'o'] (.dir (
    .cons ['o', '-'] (.dir (.cons ['f', 'o', 'o', '-', 'b', 'a', 'r'] .file .nil)) (
    .cons ['o', '_'] (.dir (.cons ['f', 'o', 'o', '_', 'b', 'a', 'r'] .file .nil)) (
    .cons ['o', 'b'] (.dir (.cons ['f', 'o', 'o', 'b', 'a', 'r'] .file .nil)) (
    .cons ['o', 'd'] (.dir (.cons ['f', 'o', 'o', 'd'] .file .nil)) .nil))))) .nil

/-- The matcher `regexify` compiles for the query `foo-`. -/
def mFoo : List Char → Bool := fun cand =>
  (regexMatch ['f', 'o', 'o', '-'] cand).getD false

/-- The matcher `regexify` compiles for the query `ab`. -/
def mAB : List Char → Bool := fun cand =>
  (regexMatch ['a', 'b'] cand).getD false

/-- A tree whose directory `ab` holds a file `zzz` that does not match
the pattern for the query `ab`. -/
def cexTreeAB : FsEntries :=
  .cons ['a', 'b'] (.dir (.cons ['z', 'z', 'z'] .file .nil)) .nil

/-- C6 (amended): at every level whose remaining prefix has at least two
characters the search takes the union of the matcher-accepted files of
the current directory, the expanded 1-character branches and the
expanded 2-character branches; with the remaining prefix empty it
collects every file of the whole subtree unconditionally, without
applying the matcher (not only the matching ones, as claimed); and on
the example tree the query `foo-` returns exactly `foo_bar` and
`foo-bar`, so neither `foobar` nor `food`. -/
theorem cratesWithPrefix_spec :
    (∀ (m : List Char → Bool) (es : FsEntries) (c1 c2 : Char) (rest : List Char),
      cratesWithPrefix m (some (.dir es)) (c1 :: c2 :: rest) =
        hereFiles m true es ++
        ((expandPathDomain [c1]).flatMap
            (fun hv => cratesWithPrefix m (childD es hv) (c2 :: rest)) ++
         (expandPathDomain [c1, c2]).flatMap
            (fun hv => cratesWithPrefix m (childD es hv) rest))) ∧
    (∀ (m : List Char → Bool) (n : FsNode) (x : List Char),
      x ∈ cratesWithPrefix m (some n) [] ↔ x ∈ allFilesN n) ∧
    cratesWithPrefix mFoo (some (.dir prefixTreeEx)) ['f', 'o', 'o', '-']
      = [['f', 'o', 'o', '_', 'b', 'a', 'r'], ['f', 'o', 'o', '-', 'b', 'a', 'r']] ∧
    ['f', 'o', 'o', 'b', 'a', 'r'] ∉
      cratesWithPrefix mFoo (some (.dir prefixTreeEx)) ['f', 'o', 'o', '-'] ∧
    ['f', 'o', 'o', 'd'] ∉
      cratesWithPrefix mFoo (some (.dir prefixTreeEx)) ['f', 'o', 'o', '-'] := by
  refine ⟨?_, ?_, by decide, by decide, by decide⟩
  · intro m es c1 c2 rest
    show cwpNode m (.dir es) (c1 :: c2 :: rest) = _
    simp only [cwpNode, cwpChild_eq]
  · intro m n x
    exact cwpNode_nil_mem m n x

/-- C6 counterexample: once the typed prefix is fully consumed the code
collects files without consulting the matcher, so on a tree whose
directory `ab` holds only the file `zzz`, searching with prefix `ab`
returns `zzz` although `zzz` does not match the anchored pattern built
from `ab` — contradicting the claim that only matching files are
collected. -/
theorem cratesWithPrefix_unmatched_file_cex :
    cratesWithPrefix mAB (some (.dir cexTreeAB)) ['a', 'b'] = [['z', 'z', 'z']] ∧
    regexMatch ['a', 'b'] ['z', 'z', 'z'] = some false := by
  decide

/-! ## Semantic versions (the `semver` crate types used by lib.rs) -/

/-- A parsed `semver::Version`: numeric major/minor/patch plus the raw
pre-release and build-metadata texts (stored verbatim, as the crate
does). -/
structure SemVer where
  major : Nat
  minor : Nat
  patch : Nat
  pre : List Char
  buildMeta : List Char
  deriving DecidableEq

/-- Decimal digits of a number, most significant first, via the
standard division loop (the fuel argument makes the recursion
structural; `n + 1` steps always suffice). -/
def natDigitsCore : Nat → Nat → List Char → List Char
  | 0, _, acc => acc
  | fuel + 1, n, acc =>
    if n < 10 then Nat.digitChar n :: acc
    else natDigitsCore fuel (n / 10) (Nat.digitChar (n % 10) :: acc)

/-- Rust `u64` `Display`: decimal digits without leading zeros. -/
def natDigits (n : Nat) : List Char := natDigitsCore (n + 1) n []

/-- Model of `semver::Version` `Display`: `major.minor.patch`, then `-pre` when
the pre-release is nonempty, then `+build` when the build metadata is
nonempty. -/
def renderVersion (v : SemVer) : List Char :=
  natDigits v.major ++ '.' :: natDigits v.minor ++ '.' :: natDigits v.patch ++
  (if v.pre = [] then [] else '-' :: v.pre) ++
  (if v.buildMeta = [] then [] else '+' :: v.buildMeta)

/-- A numeric version field: one or more digits, no leading zero (except
`0` itself), value below `2^64`. -/
def digitsToNat (ds : List Char) : Nat := ds.foldl (fun a c => a * 10 + (c.toNat - 48)) 0

/-- No forbidden leading zero. -/
def noLeadZero : List Char → Bool
  | '0' :: _ :: _ => false
  | _ => true

/-- Parse a numeric field from the front of the input, as the `semver`
crate does (digits only, no leading zero, `u64` range). -/
def parseNum (s : List Char) : Option (Nat × List Char) :=
  let ds := s.takeWhile Char.isDigit
  if ds = [] then none
  else if noLeadZero ds = false then none
  else if digitsToNat ds < 18446744073709551616 then
    some (digitsToNat ds, s.dropWhile Char.isDigit)
  else none

/-- Characters allowed inside pre-release/build identifiers. -/
def isIdentChar (c : Char) : Bool := c.isAlphanum || c == '-'

/-- Split on `.` keeping empty segments. -/
def splitDots : List Char → List (List Char)
  | [] => [[]]
  | c :: rest =>
    if c = '.' then [] :: splitDots rest
    else
      match splitDots rest with
      | [] => [[c]]
      | t :: ts => (c :: t) :: ts

/-- One pre-release identifier: nonempty, identifier characters, and if
purely numeric then without a leading zero. -/
def validPreIdent (t : List Char) : Bool :=
  !t.isEmpty && t.all isIdentChar &&
  (if t.all Char.isDigit then noLeadZero t else true)

/-- One build-metadata identifier: nonempty identifier characters
(leading zeros allowed). -/
def validBuildIdent (t : List Char) : Bool := !t.isEmpty && t.all isIdentChar

/-- A valid pre-release text (dot-separated identifiers). -/
def validPre (s : List Char) : Bool := (splitDots s).all validPreIdent

/-- A valid build-metadata text. -/
def validBuild (s : List Char) : Bool := (splitDots s).all validBuildIdent

/-- Parse what follows the patch number: nothing, `-pre`, `-pre+build`
or `+build`. -/
def parseSuffix (maj minr pat : Nat) (r : List Char) : Option SemVer :=
  match r with
  | [] => some ⟨maj, minr, pat, [], []⟩
  | '-' :: r6 =>
    if validPre (r6.takeWhile (fun c => c ≠ '+')) then
      match r6.dropWhile (fun c => c ≠ '+') with
      | [] => some ⟨maj, minr, pat, r6.takeWhile (fun c => c ≠ '+'), []⟩
      | _ :: b =>
        if validBuild b then
          some ⟨maj, minr, pat, r6.takeWhile (fun c => c ≠ '+'), b⟩
        else none
    else none
  | '+' :: b => if validBuild b then some ⟨maj, minr, pat, [], b⟩ else none
  | _ => none

/-- Model of `semver::Version::parse`. -/
def parseVersion (s : List Char) : Option SemVer :=
  match parseNum s with
  | none => none
  | some (maj, r1) =>
    match r1 with
    | '.' :: r2 =>
      match parseNum r2 with
      | none => none
      | some (minr, r3) =>
        match r3 with
        | '.' :: r4 =>
          match parseNum r4 with
          | none => none
          | some (pat, r5) => parseSuffix maj minr pat r5
        | _ => none
    | _ => none

/-! ## Release records and the version completer (lib.rs) -/

/-- One release record (`Crate` in crates.rs): the crate name, the raw
version text, the feature map (an association list of feature name to
dependent features) and the yanked flag. -/
structure CrateRec where
  name : List Char
  version : List Char
  features : List (List Char × List (List Char))
  yanked : Bool
  deriving DecidableEq

/-- Map a fallible function over a list, failing (like a panicking
`unwrap` inside `map`) as soon as one element fails. -/
def optionMapList (g : α → Option β) : List α → Option (List β)
  | [] => some []
  | a :: as_ =>
    match g a, optionMapList g as_ with
    | some b, some bs => some (b :: bs)
    | _, _ => none

/-- The record filter of `satisfied_versions`: version text starts with
the request and the record is not yanked. -/
def keepRec (req : List Char) (r : CrateRec) : Bool :=
  req.isPrefixOf r.version && !r.yanked

/-- Model of `satisfied_versions` (lib.rs): keep the non-yanked records whose raw
version text starts with `req`, parse each (a parse failure is the
`unwrap` panic, modelled as `none`), and reverse the file order. -/
def satisfiedVersions (records : List CrateRec) (req : List Char) : Option (List SemVer) :=
  (optionMapList (fun r => parseVersion r.version) (records.filter (keepRec req))).map
    List.reverse

/-- The common tail of `complete_version`: query `satisfied_versions`
with a bare prefix, then keep, for each version, the suffix of its
rendered text after the original input — dropping versions whose
rendered text does not start with that original input. -/
def completeVersionWith (records : List CrateRec) (bare pv : List Char) :
    Option (List (List Char)) :=
  (satisfiedVersions records bare).map
    (fun vs => vs.filterMap (fun v => dropPrefixQ pv (renderVersion v)))

/-- The bare query prefix `complete_version` computes:
`partial_ver.trim().trim_start_matches(comparators).trim_start_matches('=')`. -/
def rustBare (pv : List Char) : List Char :=
  ((rustTrim pv).dropWhile isCompChar).dropWhile (fun c => c = '=')

/-- Model of `complete_version` (lib.rs). -/
def completeVersion (records : List CrateRec) (pv : List Char) : Option (List (List Char)) :=
  completeVersionWith records (rustBare pv) pv

/-- The bare prefix as the claim describes it: strip the leading
comparator operator characters from the input, nothing else. -/
def specBare (pv : List Char) : List Char := pv.dropWhile isCompChar

/-- Variant of `complete_version` as the claim describes it. -/
def completeVersionClaim (records : List CrateRec) (pv : List Char) :
    Option (List (List Char)) :=
  completeVersionWith records (specBare pv) pv

/-- The two failure messages of `complete_feature`. -/
inductive FeatErr where
  | missingCrate
  | missingVersion
  deriving DecidableEq

/-- Model of `complete_feature` (lib.rs): fail when the crate is absent; among
the records whose version text starts with the given prefix take the
last one in file order and return its feature keys; fail when none
matches. -/
def completeFeature (crate? : Option (List CrateRec)) (ver : List Char) :
    Except FeatErr (List (List Char)) :=
  match crate? with
  | none => .error .missingCrate
  | some records =>
    match (records.filter (fun r => ver.isPrefixOf r.version)).getLast? with
    | none => .error .missingVersion
    | some r => .ok (r.features.map Prod.fst)

/-! ## `CrateMeta::detail` (crates.rs): loading the metadata file -/

/-- Split on `'\n'`, keeping empty segments. -/
def splitNl : List Char → List (List Char)
  | [] => [[]]
  | c :: rest =>
    if c = '\n' then [] :: splitNl rest
    else
      match splitNl rest with
      | [] => [[c]]
      | t :: ts => (c :: t) :: ts

/-- Rust `str::lines`: split on `'\n'`, dropping one final empty segment
when the text ends with `'\n'`, and stripping one trailing `'\r'` from
each line. -/
def rustLines (s : List Char) : List (List Char) :=
  match s with
  | [] => []
  | _ :: _ =>
    (if s.getLast? = some '\n' then (splitNl s).dropLast else splitNl s).map
      (fun l => if l.getLast? = some '\r' then l.dropLast else l)

/-- Map a fallible decoder over a list, stopping at the first failure
with that failure (`try_collect` over an iterator of `Result`s). -/
def exceptMapList (g : α → Except ε β) : List α → Except ε (List β)
  | [] => .ok []
  | a :: as_ =>
    match g a with
    | .error e => .error e
    | .ok b =>
      match exceptMapList g as_ with
      | .error e => .error e
      | .ok bs => .ok (b :: bs)

/-- Model of `CrateMeta::detail` (crates.rs): trim the file content, split it
into lines, decode every line with the (abstract) per-line record
decoder, failing on the first undecodable line. -/
def detailLoad (decode : List Char → Except ε CrateRec) (content : List Char) :
    Except ε (List CrateRec) :=
  exceptMapList decode (rustLines (rustTrim content))

/-! ## The CLI wrapper (main.rs) -/

/-- The two parsed subcommands. -/
inductive CliMode where
  | crateMode (input : List Char)
  | featureMode (input : List Char)

/-- What the process observably does: print the completion lines and
exit 0, exit 0 silently (a swallowed `Err`), or abort with a panic
message on stderr. -/
inductive CliOutcome where
  | printed (lines : List (List Char))
  | silentFailure
  | panicked
  deriving DecidableEq

/-- Rust `str::split_once`: split at the first occurrence of `sep`. -/
def splitOnceAt (sep : Char) : List Char → Option (List Char × List Char)
  | [] => none
  | c :: cs =>
    if c = sep then some ([], cs)
    else (splitOnceAt sep cs).map (fun p => (c :: p.1, p.2))

/-- Model of `entry` (main.rs), with the two completion queries abstracted as
`cc` (crate mode) and `cf` (feature mode); `none` models the
`split_once('@').unwrap()` panic on a feature input without `@`. -/
def entryModel (cc : List Char → Except Unit (List (List Char)))
    (cf : List Char → List Char → Except Unit (List (List Char))) :
    CliMode → Option (Except Unit (List (List Char)))
  | .crateMode s => some (cc s)
  | .featureMode s =>
    match splitOnceAt '@' s with
    | none => none
    | some (nm, ver) => some (cf nm ver)

/-- Model of `main` (main.rs): `drop(entry())` discards an `Err` (nothing is
printed, exit code 0) but cannot intercept a panic. -/
def mainModel (cc : List Char → Except Unit (List (List Char)))
    (cf : List Char → List Char → Except Unit (List (List Char)))
    (mode : CliMode) : CliOutcome :=
  match entryModel cc cf mode with
  | none => .panicked
  | some (.error _) => .silentFailure
  | some (.ok out) => .printed out

theorem optionMapList_eq_some_map (g : α → Option β) (f : α → β) :
    ∀ l : List α, (∀ a ∈ l, g a = some (f a)) → optionMapList g l = some (l.map f)
  | [], _ => rfl
  | a :: as_, h => by
    simp only [optionMapList]
    rw [h a (List.mem_cons_self a as_),
      optionMapList_eq_some_map g f as_ (fun x hx => h x (List.mem_cons_of_mem a hx))]
    rfl

/-- C3: `satisfied_versions` returns exactly the non-yanked records whose
version text starts with the prefix (a plain string-prefix test), each
parsed into structured form, in reverse file order. -/
theorem satisfiedVersions_spec (records : List CrateRec) (req : List Char)
    (f : CrateRec → SemVer)
    (hf : ∀ r ∈ records.filter (keepRec req), parseVersion r.version = some (f r)) :
    satisfiedVersions records req
      = some (((records.filter (keepRec req)).map f).reverse) := by
  unfold satisfiedVersions
  rw [optionMapList_eq_some_map _ f _ hf]
  rfl

/-- The records of the spec example: versions 1.0.0, 1.1.0, 1.1.1 and
2.0.0-beta, none yanked. -/
def versRecordsEx : List CrateRec :=
  [⟨['p'], ['1', '.', '0', '.', '0'], [], false⟩,
   ⟨['p'], ['1', '.', '1', '.', '0'], [], false⟩,
   ⟨['p'], ['1', '.', '1', '.', '1'], [], false⟩,
   ⟨['p'], ['2', '.', '0', '.', '0', '-', 'b', 'e', 't', 'a'], [], false⟩]

/-- The same records with 1.1.1 yanked. -/
def versRecordsExY : List CrateRec :=
  [⟨['p'], ['1', '.', '0', '.', '0'], [], false⟩,
   ⟨['p'], ['1', '.', '1', '.', '0'], [], false⟩,
   ⟨['p'], ['1', '.', '1', '.', '1'], [], true⟩,
   ⟨['p'], ['2', '.', '0', '.', '0', '-', 'b', 'e', 't', 'a'], [], false⟩]

/-- Witness for C3: on the spec's example records the prefix `1` yields
1.1.1, 1.1.0, 1.0.0 in that order, and yanking 1.1.1 removes it. -/
theorem satisfiedVersions_spec_witness :
    satisfiedVersions versRecordsEx ['1']
      = some [⟨1, 1, 1, [], []⟩, ⟨1, 1, 0, [], []⟩, ⟨1, 0, 0, [], []⟩] ∧
    satisfiedVersions versRecordsExY ['1']
      = some [⟨1, 1, 0, [], []⟩, ⟨1, 0, 0, [], []⟩] := by
  constructor
  · rw [satisfiedVersions_spec versRecordsEx ['1']
      (fun r => (parseVersion r.version).getD ⟨0, 0, 0, [], []⟩) (by decide)]
    decide
  · rw [satisfiedVersions_spec versRecordsExY ['1']
      (fun r => (parseVersion r.version).getD ⟨0, 0, 0, [], []⟩) (by decide)]
    decide

theorem head?_filter_eq_find? (p : α → Bool) : ∀ l : List α, (l.filter p).head? = l.find? p
  | [] => rfl
  | a :: l => by
    by_cases h : p a
    · simp [List.filter_cons, h, List.find?_cons_of_pos]
    · rw [List.filter_cons_of_neg (by simpa using h), List.find?_cons_of_neg _ (by simpa using h)]
      exact head?_filter_eq_find? p l

theorem getLast?_filter_eq_find?_reverse (p : α → Bool) (l : List α) :
    (l.filter p).getLast? = l.reverse.find? p := by
  rw [List.getLast?_eq_head?_reverse, ← List.filter_reverse]
  exact head?_filter_eq_find? p l.reverse

/-- C7: `complete_feature` fails with a not-found error when the crate
cannot be located and when no record's version text starts with the
prefix; otherwise it returns the feature keys of the last matching
record in file order (the first match searching backwards), regardless
of semantic-version order. -/
theorem completeFeature_spec (records : List CrateRec) (ver : List Char) :
    completeFeature none ver = .error .missingCrate ∧
    (records.reverse.find? (fun r => ver.isPrefixOf r.version) = none →
      completeFeature (some records) ver = .error .missingVersion) ∧
    (∀ r, records.reverse.find? (fun r => ver.isPrefixOf r.version) = some r →
      completeFeature (some records) ver = .ok (r.features.map Prod.fst)) := by
  refine ⟨rfl, ?_, ?_⟩
  · intro h
    have hg : (records.filter (fun r => ver.isPrefixOf r.version)).getLast? = none := by
      rw [getLast?_filter_eq_find?_reverse]
      exact h
    show (match (records.filter (fun r => ver.isPrefixOf r.version)).getLast? with
        | none => (Except.error FeatErr.missingVersion : Except FeatErr (List (List Char)))
        | some r => Except.ok (r.features.map Prod.fst)) = Except.error FeatErr.missingVersion
    rw [hg]
  · intro r h
    have hg : (records.filter (fun r => ver.isPrefixOf r.version)).getLast? = some r := by
      rw [getLast?_filter_eq_find?_reverse]
      exact h
    show (match (records.filter (fun r => ver.isPrefixOf r.version)).getLast? with
        | none => (Except.error FeatErr.missingVersion : Except FeatErr (List (List Char)))
        | some r => Except.ok (r.features.map Prod.fst)) = Except.ok (r.features.map Prod.fst)
    rw [hg]

/-- Two records matched by the version prefix `2`, in file order: the
record `A` (2.5.0, feature `alpha`) comes before `B` (2.0.0, feature
`beta`), so `B` is last in file order while `A` has the higher semantic
version. -/
def featRecordsEx : List CrateRec :=
  [⟨['p'], ['2', '.', '5', '.', '0'], [(['a', 'l', 'p', 'h', 'a'], [])], false⟩,
   ⟨['p'], ['2', '.', '0', '.', '0'], [(['b', 'e', 't', 'a'], [])], false⟩]

/-- Witness for C7: on the two-record example the feature keys of the
last record in file order (`beta`, version 2.0.0) are returned, not
those of the semantically higher 2.5.0. -/
theorem completeFeature_spec_witness :
    completeFeature (some featRecordsEx) ['2'] = .ok [['b', 'e', 't', 'a']] :=
  (completeFeature_spec featRecordsEx ['2']).2.2
    ⟨['p'], ['2', '.', '0', '.', '0'], [(['b', 'e', 't', 'a'], [])], false⟩ (by decide)

theorem exceptMapList_all_ok {ε : Type} (g : α → Except ε β) (f : α → β) :
    ∀ l : List α, (∀ a ∈ l, g a = .ok (f a)) → exceptMapList g l = .ok (l.map f)
  | [], _ => rfl
  | a :: as_, h => by
    simp only [exceptMapList]
    rw [h a (List.mem_cons_self a as_),
      exceptMapList_all_ok g f as_ (fun x hx => h x (List.mem_cons_of_mem a hx))]
    rfl

theorem exceptMapList_first_err {ε : Type} (g : α → Except ε β) :
    ∀ (l1 : List α) (bad : α) (l2 : List α) (e : ε),
      (∀ x ∈ l1, ∃ b, g x = .ok b) → g bad = .error e →
      exceptMapList g (l1 ++ bad :: l2) = .error e
  | [], bad, l2, e, _, hbad => by
    simp only [List.nil_append, exceptMapList, hbad]
  | a :: l1, bad, l2, e, h, hbad => by
    obtain ⟨b, hb⟩ := h a (List.mem_cons_self a l1)
    simp only [List.cons_append, exceptMapList, hb, List.append_eq]
    rw [exceptMapList_first_err g l1 bad l2 e
      (fun x hx => h x (List.mem_cons_of_mem a hx)) hbad]

/-- C8: `CrateMeta::detail` decodes each line of the (trimmed) metadata
file independently: when every line decodes, the result lists the
records in file order; as soon as one line fails to decode the whole
load fails with that decode error and no partial result. -/
theorem detailLoad_spec {ε : Type} (decode : List Char → Except ε CrateRec)
    (content : List Char) (f : List Char → CrateRec) :
    ((∀ l ∈ rustLines (rustTrim content), decode l = .ok (f l)) →
      detailLoad decode content = .ok ((rustLines (rustTrim content)).map f)) ∧
    (∀ ls1 bad ls2 e, rustLines (rustTrim content) = ls1 ++ bad :: ls2 →
      (∀ x ∈ ls1, ∃ b, decode x = .ok b) → decode bad = .error e →
      detailLoad decode content = .error e) := by
  constructor
  · intro h
    exact exceptMapList_all_ok decode f _ h
  · intro ls1 bad ls2 e hsplit h1 hbad
    unfold detailLoad
    rw [hsplit]
    exact exceptMapList_first_err decode ls1 bad ls2 e h1 hbad

/-- A record used by the C8 witness. -/
def witRec : CrateRec := ⟨['p'], ['1', '.', '0', '.', '0'], [], false⟩

/-- A toy per-line decoder for the C8 witness: the line `g` decodes, any
other line fails with error `7`. -/
def witDecode (l : List Char) : Except Nat CrateRec :=
  if l = ['g'] then .ok witRec else .error 7

/-- Witness for C8: with the toy decoder, the two-line content the first
component decodes in order, and a bad second line makes the whole load
fail with the decoder's error. -/
theorem detailLoad_spec_witness :
    detailLoad witDecode [' ', 'g', '\n', 'g', ' '] = .ok [witRec, witRec] ∧
    detailLoad witDecode ['g', '\n', 'b'] = .error 7 := by
  constructor
  · refine (detailLoad_spec witDecode [' ', 'g', '\n', 'g', ' '] (fun _ => witRec)).1 ?_
    have hlines : rustLines (rustTrim [' ', 'g', '\n', 'g', ' ']) = [['g'], ['g']] := rfl
    rw [hlines]
    intro l hl
    fin_cases hl <;> rfl
  · refine (detailLoad_spec witDecode ['g', '\n', 'b'] (fun _ => witRec)).2
      [['g']] ['b'] [] 7 rfl ?_ rfl
    intro x hx
    fin_cases hx
    exact ⟨witRec, rfl⟩

/-- C9: the claim that no input ever surfaces a visible error is wrong:
`main` does swallow every `Err` that `entry` returns (first component),
but the `feature` subcommand applied to an input without `@` hits
`split_once('@').unwrap()` and panics, which aborts the process with a
visible error message (second component). -/
theorem mainModel_error_handling :
    (∀ cc cf s e, cc s = .error e → mainModel cc cf (.crateMode s) = .silentFailure) ∧
    (∀ cc cf, mainModel cc cf (.featureMode ['s', 'e', 'r', 'd', 'e']) = .panicked) := by
  constructor
  · intro cc cf s e h
    simp [mainModel, entryModel, h]
  · intro cc cf
    rfl

/-- Witness for C9: a concrete swallowed error. -/
theorem mainModel_error_handling_witness :
    mainModel (fun _ => .error ()) (fun _ _ => .ok []) (.crateMode ['x']) = .silentFailure :=
  mainModel_error_handling.1 _ _ ['x'] () rfl

/-! ## Lemmas about digits, rendering and parsing -/

theorem charToNat_inj {c d : Char} (h : c.toNat = d.toNat) : c = d :=
  Char.ext (UInt32.toNat.inj h)

theorem digitChar_toNat {n : Nat} (h : n < 10) : (Nat.digitChar n).toNat = 48 + n := by
  interval_cases n <;> rfl

theorem isDigit_toNat {c : Char} (h : c.isDigit = true) :
    48 ≤ c.toNat ∧ c.toNat ≤ 57 := by
  simpa [Char.isDigit] using h

theorem natDigitsCore_acc : ∀ (fuel n : Nat) (acc : List Char),
    natDigitsCore fuel n acc = natDigitsCore fuel n [] ++ acc
  | 0, _, _ => by simp [natDigitsCore]
  | fuel + 1, n, acc => by
    by_cases h : n < 10
    · simp [natDigitsCore, h]
    · simp only [natDigitsCore, if_neg h]
      rw [natDigitsCore_acc fuel (n / 10) (Nat.digitChar (n % 10) :: acc),
        natDigitsCore_acc fuel (n / 10) [Nat.digitChar (n % 10)]]
      simp

theorem natDigitsCore_fuel : ∀ (f1 f2 n : Nat), n < f1 → n < f2 →
    natDigitsCore f1 n [] = natDigitsCore f2 n []
  | 0, _, _, h1, _ => absurd h1 (Nat.not_lt_zero _)
  | _ + 1, 0, _, _, h2 => absurd h2 (Nat.not_lt_zero _)
  | f1 + 1, f2 + 1, n, h1, h2 => by
    by_cases h : n < 10
    · simp [natDigitsCore, h]
    · simp only [natDigitsCore, if_neg h]
      have hn : 10 ≤ n := Nat.le_of_not_lt h
      have hd1 : n / 10 < f1 := by omega
      have hd2 : n / 10 < f2 := by omega
      rw [natDigitsCore_acc f1 (n / 10) _, natDigitsCore_acc f2 (n / 10) _,
        natDigitsCore_fuel f1 f2 (n / 10) hd1 hd2]

theorem natDigits_small {n : Nat} (h : n < 10) : natDigits n = [Nat.digitChar n] := by
  unfold natDigits natDigitsCore
  rw [if_pos h]

theorem natDigits_step {n : Nat} (h : 10 ≤ n) :
    natDigits n = natDigits (n / 10) ++ [Nat.digitChar (n % 10)] := by
  unfold natDigits
  show natDigitsCore (n + 1) n [] = _
  have hstep : natDigitsCore (n + 1) n [] =
      natDigitsCore n (n / 10) [Nat.digitChar (n % 10)] := by
    simp [natDigitsCore, Nat.not_lt.mpr h]
  rw [hstep, natDigitsCore_acc n (n / 10) _]
  have : natDigitsCore n (n / 10) [] = natDigitsCore (n / 10 + 1) (n / 10) [] :=
    natDigitsCore_fuel _ _ _ (by omega) (by omega)
  rw [this]

theorem natDigits_all_digits (n : Nat) :
    ∀ c ∈ natDigits n, 48 ≤ c.toNat ∧ c.toNat ≤ 57 := by
  induction n using Nat.strong_induction_on with
  | _ n ih =>
    by_cases h : n < 10
    · rw [natDigits_small h]
      intro c hc
      simp only [List.mem_singleton] at hc
      subst hc
      rw [digitChar_toNat h]
      omega
    · rw [natDigits_step (Nat.le_of_not_lt h)]
      intro c hc
      rcases List.mem_append.mp hc with h1 | h1
      · exact ih (n / 10) (by omega) c h1
      · simp only [List.mem_singleton] at h1
        subst h1
        rw [digitChar_toNat (Nat.mod_lt _ (by omega))]
        omega

theorem natDigits_ne_nil (n : Nat) : natDigits n ≠ [] := by
  by_cases h : n < 10
  · rw [natDigits_small h]
    simp
  · rw [natDigits_step (Nat.le_of_not_lt h)]
    simp

theorem digitsToNat_append (ds : List Char) (d : Char) :
    digitsToNat (ds ++ [d]) = 10 * digitsToNat ds + (d.toNat - 48) := by
  unfold digitsToNat
  rw [List.foldl_append]
  simp [Nat.mul_comm]

theorem foldl_digits_ge_one : ∀ (l : List Char) (a : Nat), 1 ≤ a →
    1 ≤ l.foldl (fun a c => a * 10 + (c.toNat - 48)) a
  | [], a, h => h
  | c :: l, a, h =>
    foldl_digits_ge_one l (a * 10 + (c.toNat - 48)) (by omega)

theorem digit_roundtrip {d : Char} (h : d.isDigit = true) :
    Nat.digitChar (d.toNat - 48) = d := by
  obtain ⟨h1, h2⟩ := isDigit_toNat h
  apply charToNat_inj
  rw [digitChar_toNat (by omega)]
  omega

theorem noLeadZero_cons2_zero (y : Char) (t : List Char) :
    noLeadZero ('0' :: y :: t) = false := rfl

theorem noLeadZero_single (x : Char) : noLeadZero [x] = true := by
  unfold noLeadZero
  split
  · rename_i h
    simp at h
  · rfl

theorem noLeadZero_cons2_ne {x : Char} (y : Char) (t : List Char) (hx : x ≠ '0') :
    noLeadZero (x :: y :: t) = true := by
  unfold noLeadZero
  split
  · rename_i h
    injection h with h1 _
    exact absurd h1 hx
  · rfl

theorem natDigits_digitsToNat : ∀ ds : List Char, ds ≠ [] →
    (∀ d ∈ ds, d.isDigit = true) → noLeadZero ds = true →
    natDigits (digitsToNat ds) = ds := by
  intro ds
  induction ds using List.reverseRecOn with
  | nil => intro h; exact absurd rfl h
  | append_singleton ds d ih =>
    intro _ hdig hlz
    have hd : d.isDigit = true := hdig d (by simp)
    obtain ⟨hd1, hd2⟩ := isDigit_toNat hd
    cases ds with
    | nil =>
      have hval : digitsToNat [d] = d.toNat - 48 := by
        unfold digitsToNat
        simp
      rw [List.nil_append, hval, natDigits_small (by omega), digit_roundtrip hd]
    | cons d0 rest =>
      have hlz' : noLeadZero (d0 :: rest) = true := by
        cases rest with
        | nil => exact noLeadZero_single d0
        | cons y t =>
          refine noLeadZero_cons2_ne y t ?_
          intro h0
          subst h0
          rw [show ('0' :: y :: t) ++ [d] = '0' :: y :: (t ++ [d]) by simp] at hlz
          rw [noLeadZero_cons2_zero] at hlz
          exact Bool.false_ne_true hlz
      have hne0 : d0 ≠ '0' := by
        intro h0
        subst h0
        cases rest with
        | nil =>
          rw [show (['0'] : List Char) ++ [d] = '0' :: d :: [] by simp] at hlz
          rw [noLeadZero_cons2_zero] at hlz
          exact Bool.false_ne_true hlz
        | cons y t =>
          rw [show ('0' :: y :: t) ++ [d] = '0' :: y :: (t ++ [d]) by simp] at hlz
          rw [noLeadZero_cons2_zero] at hlz
          exact Bool.false_ne_true hlz
      have hd0 : d0.isDigit = true := hdig d0 (by simp)
      obtain ⟨h01, h02⟩ := isDigit_toNat hd0
      have h0ne48 : d0.toNat ≠ 48 := by
        intro h
        exact hne0 (charToNat_inj (h.trans (by rfl)))
      have hv1 : 1 ≤ digitsToNat (d0 :: rest) := by
        unfold digitsToNat
        rw [List.foldl_cons]
        exact foldl_digits_ge_one rest _ (by omega)
      rw [digitsToNat_append (d0 :: rest) d]
      set v := digitsToNat (d0 :: rest) with hv
      have h10 : 10 ≤ 10 * v + (d.toNat - 48) := by omega
      rw [natDigits_step h10]
      have hdiv : (10 * v + (d.toNat - 48)) / 10 = v := by omega
      have hmod : (10 * v + (d.toNat - 48)) % 10 = d.toNat - 48 := by omega
      rw [hdiv, hmod, digit_roundtrip hd]
      rw [ih (by simp) (fun x hx => hdig x (List.mem_append_left _ hx)) hlz']

theorem parseNum_sound {s : List Char} {n : Nat} {rest : List Char}
    (h : parseNum s = some (n, rest)) : natDigits n ++ rest = s := by
  unfold parseNum at h
  set ds := s.takeWhile Char.isDigit with hds
  by_cases h1 : ds = []
  · rw [if_pos h1] at h
    exact absurd h (by simp)
  · rw [if_neg h1] at h
    by_cases h2 : noLeadZero ds = false
    · rw [if_pos h2] at h
      exact absurd h (by simp)
    · rw [if_neg h2] at h
      by_cases h3 : digitsToNat ds < 18446744073709551616
      · rw [if_pos h3] at h
        injection h with h
        injection h with he hr
        subst he
        subst hr
        rw [natDigits_digitsToNat ds h1
          (fun d hd => List.mem_takeWhile_imp hd)
          (by revert h2; cases noLeadZero ds <;> simp)]
        exact List.takeWhile_append_dropWhile Char.isDigit s
      · rw [if_neg h3] at h
        exact absurd h (by simp)

theorem dropWhile_head_false {p : α → Bool} : ∀ {l : List α} {x : α} {xs : List α},
    l.dropWhile p = x :: xs → p x = false
  | [], x, xs, h => by simp at h
  | a :: l, x, xs, h => by
    rw [List.dropWhile_cons] at h
    by_cases ha : p a
    · rw [if_pos ha] at h
      exact dropWhile_head_false h
    · rw [if_neg ha] at h
      injection h with h1 _
      subst h1
      exact Bool.eq_false_iff.mpr ha

theorem splitDots_ne_nil : ∀ s : List Char, splitDots s ≠ []
  | [] => by simp [splitDots]
  | c :: rest => by
    unfold splitDots
    by_cases h : c = '.'
    · simp [h]
    · rw [if_neg h]
      cases hs : splitDots rest with
      | nil => simp
      | cons t ts => simp

theorem splitDots_chars : ∀ (s : List Char) (c : Char), c ∈ s →
    c = '.' ∨ ∃ t ∈ splitDots s, c ∈ t
  | [], c, h => by simp at h
  | a :: rest, c, h => by
    unfold splitDots
    by_cases ha : a = '.'
    · rw [if_pos ha]
      rcases List.mem_cons.mp h with h1 | h1
      · subst h1
        exact Or.inl ha
      · rcases splitDots_chars rest c h1 with h2 | ⟨t, ht, hc⟩
        · exact Or.inl h2
        · exact Or.inr ⟨t, List.mem_cons_of_mem _ ht, hc⟩
    · rw [if_neg ha]
      cases hs : splitDots rest with
      | nil => exact absurd hs (splitDots_ne_nil rest)
      | cons t ts =>
        rcases List.mem_cons.mp h with h1 | h1
        · subst h1
          exact Or.inr ⟨c :: t, List.mem_cons_self _ _, List.mem_cons_self _ _⟩
        · rcases splitDots_chars rest c h1 with h2 | ⟨t', ht', hc⟩
          · exact Or.inl h2
          · rw [hs] at ht'
            rcases List.mem_cons.mp ht' with h3 | h3
            · subst h3
              exact Or.inr ⟨a :: t', List.mem_cons_self _ _, List.mem_cons_of_mem _ hc⟩
            · exact Or.inr ⟨t', List.mem_cons_of_mem _ h3, hc⟩

theorem validPre_chars {s : List Char} (h : validPre s = true) :
    ∀ c ∈ s, c = '.' ∨ isIdentChar c = true := by
  intro c hc
  rcases splitDots_chars s c hc with h1 | ⟨t, ht, hct⟩
  · exact Or.inl h1
  · have := (List.all_eq_true.mp h) t ht
    have h2 := ((Bool.and_eq_true _ _).mp ((Bool.and_eq_true _ _).mp this).1).2
    exact Or.inr ((List.all_eq_true.mp h2) c hct)

theorem validBuild_chars {s : List Char} (h : validBuild s = true) :
    ∀ c ∈ s, c = '.' ∨ isIdentChar c = true := by
  intro c hc
  rcases splitDots_chars s c hc with h1 | ⟨t, ht, hct⟩
  · exact Or.inl h1
  · have := (List.all_eq_true.mp h) t ht
    have h2 := ((Bool.and_eq_true _ _).mp this).2
    exact Or.inr ((List.all_eq_true.mp h2) c hct)

theorem validPre_ne_nil {s : List Char} (h : validPre s = true) : s ≠ [] := by
  intro he
  subst he
  exact absurd h (by decide)

theorem validBuild_ne_nil {s : List Char} (h : validBuild s = true) : s ≠ [] := by
  intro he
  subst he
  exact absurd h (by decide)

theorem parseSuffix_sound {M m p : Nat} {r : List Char} {v : SemVer}
    (h : parseSuffix M m p r = some v) :
    v.major = M ∧ v.minor = m ∧ v.patch = p ∧
    ((if v.pre = [] then [] else '-' :: v.pre) ++
     (if v.buildMeta = [] then [] else '+' :: v.buildMeta)) = r ∧
    (∀ c ∈ v.pre, c = '.' ∨ isIdentChar c = true) ∧
    (∀ c ∈ v.buildMeta, c = '.' ∨ isIdentChar c = true) := by
  unfold parseSuffix at h
  split at h
  · injection h with h
    subst h
    simp
  · rename_i r6
    split at h
    · rename_i hvp
      split at h
      · rename_i hdrop
        injection h with h
        subst h
        refine ⟨rfl, rfl, rfl, ?_, ?_, ?_⟩
        · show (if List.takeWhile (fun c => decide (c ≠ '+')) r6 = [] then []
              else '-' :: List.takeWhile (fun c => decide (c ≠ '+')) r6) ++
              (if ([] : List Char) = [] then [] else '+' :: ([] : List Char)) = '-' :: r6
          rw [if_pos rfl, if_neg (validPre_ne_nil hvp), List.append_nil]
          have hsplit := List.takeWhile_append_dropWhile (fun c => decide (c ≠ '+')) r6
          rw [hdrop, List.append_nil] at hsplit
          rw [hsplit]
        · exact validPre_chars hvp
        · intro c hc
          simp at hc
      · rename_i x b hdrop
        split at h
        · rename_i hvb
          injection h with h
          subst h
          refine ⟨rfl, rfl, rfl, ?_, ?_, ?_⟩
          · show (if List.takeWhile (fun c => decide (c ≠ '+')) r6 = [] then []
                else '-' :: List.takeWhile (fun c => decide (c ≠ '+')) r6) ++
                (if b = [] then [] else '+' :: b) = '-' :: r6
            rw [if_neg (validPre_ne_nil hvp), if_neg (validBuild_ne_nil hvb)]
            have hx : x = '+' := by
              have := dropWhile_head_false hdrop
              simpa using this
            subst hx
            have hsplit := List.takeWhile_append_dropWhile (fun c => decide (c ≠ '+')) r6
            rw [hdrop] at hsplit
            rw [List.cons_append, hsplit]
          · exact validPre_chars hvp
          · exact validBuild_chars hvb
        · exact absurd h (by simp)
    · exact absurd h (by simp)
  · rename_i b
    split at h
    · rename_i hvb
      injection h with h
      subst h
      refine ⟨rfl, rfl, rfl, ?_, ?_, ?_⟩
      · show (if ([] : List Char) = [] then [] else '-' :: ([] : List Char)) ++
            (if b = [] then [] else '+' :: b) = '+' :: b
        rw [if_pos rfl, if_neg (validBuild_ne_nil hvb), List.nil_append]
      · intro c hc
        simp at hc
      · exact validBuild_chars hvb
    · exact absurd h (by simp)
  · exact absurd h (by simp)

theorem parseVersion_sound {s : List Char} {v : SemVer}
    (h : parseVersion s = some v) :
    renderVersion v = s ∧
    (∀ c ∈ v.pre, c = '.' ∨ isIdentChar c = true) ∧
    (∀ c ∈ v.buildMeta, c = '.' ∨ isIdentChar c = true) := by
  unfold parseVersion at h
  split at h
  · exact absurd h (by simp)
  · rename_i pr1 maj r1 hpn1
    split at h
    · rename_i r2
      split at h
      · exact absurd h (by simp)
      · rename_i pr2 minr r3 hpn2
        split at h
        · rename_i r4
          split at h
          · exact absurd h (by simp)
          · rename_i pr3 pat r5 hpn3
            obtain ⟨hM, hm, hp, hsufr, hpre, hbuild⟩ := parseSuffix_sound h
            refine ⟨?_, hpre, hbuild⟩
            have h1 := parseNum_sound hpn1
            have h2 := parseNum_sound hpn2
            have h3 := parseNum_sound hpn3
            unfold renderVersion
            rw [hM, hm, hp]
            simp only [List.append_assoc, List.cons_append]
            rw [hsufr, h3, h2]
            exact h1
        · exact absurd h (by simp)
    · exact absurd h (by simp)

theorem isRustWs_eq_false {c : Char} (h1 : 43 ≤ c.toNat) (h2 : c.toNat ≤ 122) :
    isRustWs c = false := by
  cases hw : isRustWs c
  · rfl
  · exfalso
    simp [isRustWs] at hw
    omega

theorem identChar_range {c : Char} (h : isIdentChar c = true) :
    43 ≤ c.toNat ∧ c.toNat ≤ 122 := by
  rcases Bool.or_eq_true_iff.mp h with h1 | h1
  · simp [Char.isAlphanum, Char.isAlpha, Char.isUpper, Char.isLower, Char.isDigit] at h1
    rcases h1 with (⟨ha, hb⟩ | ⟨ha, hb⟩) | ⟨ha, hb⟩
    · have ha' : 65 ≤ c.toNat := ha
      have hb' : c.toNat ≤ 90 := hb
      omega
    · have ha' : 97 ≤ c.toNat := ha
      have hb' : c.toNat ≤ 122 := hb
      omega
    · have ha' : 48 ≤ c.toNat := ha
      have hb' : c.toNat ≤ 57 := hb
      omega
  · have : c = '-' := by simpa using h1
    subst this
    decide

theorem renderVersion_head (v : SemVer) :
    ∃ d rest, renderVersion v = d :: rest ∧ 48 ≤ d.toNat ∧ d.toNat ≤ 57 := by
  cases hd : natDigits v.major with
  | nil => exact absurd hd (natDigits_ne_nil _)
  | cons d ds =>
    refine ⟨d, ds ++ '.' :: natDigits v.minor ++ '.' :: natDigits v.patch ++
      (if v.pre = [] then [] else '-' :: v.pre) ++
      (if v.buildMeta = [] then [] else '+' :: v.buildMeta), ?_, ?_⟩
    · unfold renderVersion
      rw [hd]
      simp [List.append_assoc]
    · exact natDigits_all_digits v.major d (hd ▸ List.mem_cons_self d ds)

theorem renderVersion_chars_range {v : SemVer}
    (hpre : ∀ c ∈ v.pre, c = '.' ∨ isIdentChar c = true)
    (hbuild : ∀ c ∈ v.buildMeta, c = '.' ∨ isIdentChar c = true) :
    ∀ c ∈ renderVersion v, 43 ≤ c.toNat ∧ c.toNat ≤ 122 := by
  intro c hc
  unfold renderVersion at hc
  simp only [List.append_assoc, List.cons_append, List.mem_append, List.mem_cons] at hc
  have hdigit : ∀ n, c ∈ natDigits n → 43 ≤ c.toNat ∧ c.toNat ≤ 122 := by
    intro n hn
    have := natDigits_all_digits n c hn
    omega
  have hdot : c = '.' → 43 ≤ c.toNat ∧ c.toNat ≤ 122 := by
    intro h
    subst h
    decide
  have hident : (c = '.' ∨ isIdentChar c = true) → 43 ≤ c.toNat ∧ c.toNat ≤ 122 := by
    intro h
    rcases h with h | h
    · exact hdot h
    · exact identChar_range h
  rcases hc with h | h | h | h | h
  · exact hdigit _ h
  · exact hdot h
  · exact hdigit _ h
  · exact hdot h
  · rcases h with h | h
    · exact hdigit _ h
    · rcases h with h | h
      · -- pre part
        by_cases hp : v.pre = []
        · rw [if_pos hp] at h
          simp at h
        · rw [if_neg hp] at h
          rcases List.mem_cons.mp h with h1 | h1
          · subst h1
            decide
          · exact hident (hpre c h1)
      · by_cases hb : v.buildMeta = []
        · rw [if_pos hb] at h
          simp at h
        · rw [if_neg hb] at h
          rcases List.mem_cons.mp h with h1 | h1
          · subst h1
            decide
          · exact hident (hbuild c h1)

theorem dropPrefixQ_some_append : ∀ (p s t : List Char), dropPrefixQ p s = some t → p ++ t = s
  | [], s, t, h => by
    injection h with h
    subst h
    rfl
  | c :: p, [], t, h => by simp [dropPrefixQ] at h
  | c :: p, d :: s, t, h => by
    unfold dropPrefixQ at h
    by_cases hcd : c = d
    · rw [if_pos hcd] at h
      subst hcd
      rw [List.cons_append, dropPrefixQ_some_append p s t h]
    · rw [if_neg hcd] at h
      exact absurd h (by simp)

theorem optionMapList_some_of_all (g : α → Option β) :
    ∀ l : List α, (∀ a ∈ l, (g a).isSome) →
      ∃ ys, optionMapList g l = some ys ∧ ∀ y ∈ ys, ∃ a ∈ l, g a = some y
  | [], _ => ⟨[], rfl, by simp⟩
  | a :: as_, h => by
    obtain ⟨b, hb⟩ := Option.isSome_iff_exists.mp (h a (List.mem_cons_self a as_))
    obtain ⟨ys, hys, hmem⟩ :=
      optionMapList_some_of_all g as_ (fun x hx => h x (List.mem_cons_of_mem a hx))
    refine ⟨b :: ys, ?_, ?_⟩
    · simp only [optionMapList, hb, hys]
    · intro y hy
      rcases List.mem_cons.mp hy with h1 | h1
      · subst h1
        exact ⟨a, List.mem_cons_self a as_, hb⟩
      · obtain ⟨x, hx, hgx⟩ := hmem y h1
        exact ⟨x, List.mem_cons_of_mem a hx, hgx⟩

theorem satisfiedVersions_all_parse (records : List CrateRec) (b : List Char)
    (hp : ∀ r ∈ records, (parseVersion r.version).isSome) :
    ∃ vs, satisfiedVersions records b = some vs ∧
      ∀ v ∈ vs, ∃ r ∈ records, keepRec b r = true ∧ parseVersion r.version = some v := by
  obtain ⟨ys, hys, hmem⟩ := optionMapList_some_of_all (fun r => parseVersion r.version)
    (records.filter (keepRec b)) (fun r hr => hp r (List.mem_of_mem_filter hr))
  refine ⟨ys.reverse, ?_, ?_⟩
  · unfold satisfiedVersions
    rw [hys]
    rfl
  · intro v hv
    obtain ⟨r, hr, hpr⟩ := hmem v (List.mem_reverse.mp hv)
    exact ⟨r, List.mem_of_mem_filter hr, List.of_mem_filter hr, hpr⟩

theorem dropWhile_head_keep {p : α → Bool} {a : α} {l : List α} (h : p a = false) :
    (a :: l).dropWhile p = a :: l := by
  rw [List.dropWhile_cons, if_neg]
  simp [h]

theorem rustTrim_eq_self {s : List Char} (h : ∀ c ∈ s, isRustWs c = false) :
    rustTrim s = s := by
  unfold rustTrim
  have h1 : s.dropWhile isRustWs = s := by
    cases s with
    | nil => rfl
    | cons a l => exact dropWhile_head_keep (h a (List.mem_cons_self a l))
  rw [h1]
  have h2 : s.reverse.dropWhile isRustWs = s.reverse := by
    cases hr : s.reverse with
    | nil => rfl
    | cons a l =>
      have ha : a ∈ s := by
        rw [← List.mem_reverse, hr]
        exact List.mem_cons_self a l
      exact dropWhile_head_keep (h a ha)
  rw [h2, List.reverse_reverse]

theorem isCompChar_toNat {c : Char} (h : isCompChar c = true) :
    c.toNat = 62 ∨ c.toNat = 60 ∨ c.toNat = 61 ∨ c.toNat = 126 ∨ c.toNat = 94 := by
  simp [isCompChar] at h
  rcases h with (((h | h) | h) | h) | h <;> subst h <;> decide

theorem isCompChar_false_of_digit {c : Char} (h1 : 48 ≤ c.toNat) (h2 : c.toNat ≤ 57) :
    isCompChar c = false := by
  cases hc : isCompChar c
  · rfl
  · exfalso
    rcases isCompChar_toNat hc with h | h | h | h | h <;> omega

theorem dropPrefixQ_none_head {c : Char} {t : List Char}
    (hc : ¬(48 ≤ c.toNat ∧ c.toNat ≤ 57)) (v : SemVer) :
    dropPrefixQ (c :: t) (renderVersion v) = none := by
  obtain ⟨d, rest, hr, hd1, hd2⟩ := renderVersion_head v
  rw [hr]
  show (if c = d then dropPrefixQ t rest else none) = none
  rw [if_neg]
  intro heq
  subst heq
  exact hc ⟨hd1, hd2⟩

theorem dropPrefixQ_none_ws {pv : List Char} {w : Char} (hw : w ∈ pv)
    (hws : isRustWs w = true) {v : SemVer}
    (hpre : ∀ c ∈ v.pre, c = '.' ∨ isIdentChar c = true)
    (hbuild : ∀ c ∈ v.buildMeta, c = '.' ∨ isIdentChar c = true) :
    dropPrefixQ pv (renderVersion v) = none := by
  cases hdp : dropPrefixQ pv (renderVersion v) with
  | none => rfl
  | some t =>
    exfalso
    have happ := dropPrefixQ_some_append pv (renderVersion v) t hdp
    have hmem : w ∈ renderVersion v := by
      rw [← happ]
      exact List.mem_append_left _ hw
    obtain ⟨hr1, hr2⟩ := renderVersion_chars_range hpre hbuild w hmem
    have := isRustWs_eq_false hr1 hr2
    rw [hws] at this
    exact absurd this (by simp)

theorem completeVersionWith_eq_nil (records : List CrateRec) (bare pv : List Char)
    (hp : ∀ r ∈ records, (parseVersion r.version).isSome)
    (hkill : ∀ v, (∃ r ∈ records, parseVersion r.version = some v) →
      dropPrefixQ pv (renderVersion v) = none) :
    completeVersionWith records bare pv = some [] := by
  obtain ⟨vs, hvs, hmem⟩ := satisfiedVersions_all_parse records bare hp
  unfold completeVersionWith
  rw [hvs]
  show some (vs.filterMap (fun v => dropPrefixQ pv (renderVersion v))) = some []
  congr 1
  rw [List.filterMap_eq_nil_iff]
  intro v hv
  obtain ⟨r, hr, _, hpr⟩ := hmem v hv
  exact hkill v ⟨r, hr, hpr⟩

/-- C4: `complete_version` computes its candidates from the bare prefix
obtained by stripping leading comparator characters and keeps, for each
candidate, the suffix of its rendered text after the original unstripped
input, exactly as the claim describes (the additional `trim()` in the
code is unobservable); and concatenating the original input with any
returned suffix reproduces a real, non-yanked version string exactly. -/
theorem completeVersion_spec (records : List CrateRec) (pv : List Char)
    (hp : ∀ r ∈ records, (parseVersion r.version).isSome) :
    completeVersion records pv = completeVersionClaim records pv ∧
    (∀ out, completeVersion records pv = some out → ∀ s ∈ out,
      ∃ r ∈ records, r.yanked = false ∧ pv ++ s = r.version) := by
  constructor
  · cases hpv : pv with
    | nil => rfl
    | cons c t =>
      unfold completeVersion completeVersionClaim
      by_cases hdig : 48 ≤ c.toNat ∧ c.toNat ≤ 57
      · by_cases hwex : ∃ w ∈ c :: t, isRustWs w = true
        · obtain ⟨w, hwmem, hwtrue⟩ := hwex
          have hkill : ∀ v, (∃ r ∈ records, parseVersion r.version = some v) →
              dropPrefixQ (c :: t) (renderVersion v) = none := by
            rintro v ⟨r, hr, hpr⟩
            obtain ⟨-, hpre, hbuild⟩ := parseVersion_sound hpr
            exact dropPrefixQ_none_ws hwmem hwtrue hpre hbuild
          rw [completeVersionWith_eq_nil records (rustBare (c :: t)) (c :: t) hp hkill,
            completeVersionWith_eq_nil records (specBare (c :: t)) (c :: t) hp hkill]
        · have hall : ∀ x ∈ c :: t, isRustWs x = false := by
            intro x hx
            cases hb : isRustWs x
            · rfl
            · exact absurd ⟨x, hx, hb⟩ hwex
          have hcomp : isCompChar c = false := isCompChar_false_of_digit hdig.1 hdig.2
          have hne : ¬(c = '=') := by
            intro he
            subst he
            revert hdig
            decide
          unfold rustBare specBare
          rw [rustTrim_eq_self hall]
          rw [dropWhile_head_keep hcomp,
            @dropWhile_head_keep Char (fun x => decide (x = '=')) c t (by simp [hne])]
      · have hkill : ∀ v, (∃ r ∈ records, parseVersion r.version = some v) →
            dropPrefixQ (c :: t) (renderVersion v) = none :=
          fun v _ => dropPrefixQ_none_head hdig v
        rw [completeVersionWith_eq_nil records (rustBare (c :: t)) (c :: t) hp hkill,
          completeVersionWith_eq_nil records (specBare (c :: t)) (c :: t) hp hkill]
  · intro out hout s hs
    obtain ⟨vs, hvs, hmem⟩ := satisfiedVersions_all_parse records (rustBare pv) hp
    unfold completeVersion completeVersionWith at hout
    rw [hvs] at hout
    have hout2 : vs.filterMap (fun v => dropPrefixQ pv (renderVersion v)) = out :=
      Option.some.inj hout
    subst hout2
    obtain ⟨v, hv, hfv⟩ := List.mem_filterMap.mp hs
    obtain ⟨r, hr, hkeep, hpr⟩ := hmem v hv
    have hyank : r.yanked = false := by
      have h2 := ((Bool.and_eq_true _ _).mp hkeep).2
      simpa using h2
    have happ := dropPrefixQ_some_append pv (renderVersion v) s hfv
    have hround := (parseVersion_sound hpr).1
    refine ⟨r, hr, hyank, ?_⟩
    rw [happ]
    exact hround

/-- Witness for C4 at the spec records and the typed input `1.`: the
code agrees with the claim-described computation, and the completions
are the suffixes `1.1`, `1.0`, `0.0` of the real versions. -/
theorem completeVersion_spec_witness :
    completeVersion versRecordsEx ['1', '.'] = completeVersionClaim versRecordsEx ['1', '.'] ∧
    completeVersion versRecordsEx ['1', '.']
      = some [['1', '.', '1'], ['1', '.', '0'], ['0', '.', '0']] :=
  ⟨(completeVersion_spec versRecordsEx ['1', '.'] (by decide)).1, by decide⟩

/-- C10: when the typed partial version starts with a comparator
operator character, every rendered version string starts with a digit,
so the final literal-prefix filter drops every candidate and
`complete_version` returns the empty list. -/
theorem completeVersion_comparator_head (records : List CrateRec) (pv : List Char)
    (c : Char) (t : List Char) (hpv : pv = c :: t) (hc : isCompChar c = true)
    (hp : ∀ r ∈ records, (parseVersion r.version).isSome) :
    completeVersion records pv = some [] := by
  subst hpv
  have hnd : ¬(48 ≤ c.toNat ∧ c.toNat ≤ 57) := by
    intro hd
    rcases isCompChar_toNat hc with h | h | h | h | h <;> omega
  exact completeVersionWith_eq_nil records (rustBare (c :: t)) (c :: t) hp
    (fun v _ => dropPrefixQ_none_head hnd v)

/-- Witness for C10: the input `~1` on the spec records yields no
completion. -/
theorem completeVersion_comparator_head_witness :
    completeVersion versRecordsEx ['~', '1'] = some [] :=
  completeVersion_comparator_head versRecordsEx ['~', '1'] '~' ['1'] rfl (by decide)
    (by decide)
